import Mathlib

/-!
Verification of the dividend-futures replication pipeline
(Gormsen–Koijen Table 1 / Figure 5 replication).

The pipeline's tabular values are floating-point in the source; we model a
float cell as `PVal`: `nan` for a missing value (NaN), `neginf`/`posinf` for
the IEEE infinities that numpy division and log can produce, and `num q`
for a finite value, idealised as an exact rational.  IEEE-754 distinguishes
+0.0 from -0.0; the only operation here whose result could depend on that
sign is `np.log`, and `log(+0.0) = log(-0.0) = -inf`, so the two zeros are
collapsed into `num 0`.
-/

inductive PVal where
  | nan : PVal
  | neginf : PVal
  | posinf : PVal
  | num : ℚ → PVal
deriving DecidableEq

/-- Lift of a possibly-missing cell to a float value: pandas stores a
missing observation as NaN. -/
def PVal.ofOpt : Option ℚ → PVal
  | none => .nan
  | some q => .num q

/-- Test used by pandas `isna`/`dropna`: only NaN counts as null
(infinities do not). -/
def PVal.isNaN : PVal → Bool
  | .nan => true
  | _ => false

/-- IEEE-754 division as numpy performs it elementwise (`div / fut`,
`shift / series`): NaN propagates, x/0 is a signed infinity for x ≠ 0,
0/0 is NaN, inf/inf is NaN, finite/inf is (signed) zero, collapsed to
`num 0`. -/
def pdiv : PVal → PVal → PVal
  | .nan, _ => .nan
  | .neginf, .nan => .nan
  | .posinf, .nan => .nan
  | .num _, .nan => .nan
  | .num a, .num b =>
      if b = 0 then (if a = 0 then .nan else if 0 < a then .posinf else .neginf)
      else .num (a / b)
  | .posinf, .num b => if 0 ≤ b then .posinf else .neginf
  | .neginf, .num b => if 0 ≤ b then .neginf else .posinf
  | .num _, .posinf => .num 0
  | .num _, .neginf => .num 0
  | .posinf, .posinf => .nan
  | .posinf, .neginf => .nan
  | .neginf, .posinf => .nan
  | .neginf, .neginf => .nan

/-- Float values produced once `np.log` has been applied: the finite part
lives in ℝ (a logarithm of a rational is irrational in general). -/
inductive PValR where
  | nan : PValR
  | neginf : PValR
  | posinf : PValR
  | num : ℝ → PValR

/-- Test used by pandas `isna`/`dropna` on the log-valued column. -/
def PValR.isNaN : PValR → Bool
  | .nan => true
  | _ => false

/-- Elementwise `np.log` (warnings are suppressed in the source, so the
domain violations produce NaN / -inf silently, they never raise):
log NaN = NaN, log x = NaN for x < 0 (including -inf), log (±0) = -inf,
log (+inf) = +inf. -/
noncomputable def plog : PVal → PValR
  | .nan => .nan
  | .neginf => .nan
  | .posinf => .posinf
  | .num q => if q < 0 then .nan else if q = 0 then .neginf else .num (Real.log (q : ℝ))

/-- Multiplication by the positive constant `1/n` with `n = 2`
(`TABLE1_replication.py` line 159-163): it preserves NaN and the sign of
the infinities. -/
noncomputable def PValR.half : PValR → PValR
  | .nan => .nan
  | .neginf => .neginf
  | .posinf => .posinf
  | .num r => .num ((1 / 2) * r)

/-- Elementwise body of `calculate_equity_yields`
(`TABLE1_replication.py` lines 161-163):
`(1/n) * np.log(div_data[c] / futures_data[c])` with `n = 2`, at one date,
on the dividend cell `d` and the futures cell `f`. -/
noncomputable def equityYieldVal (d f : Option ℚ) : PValR :=
  (plog (pdiv (PVal.ofOpt d) (PVal.ofOpt f))).half

/-- `calculate_equity_yields` (`TABLE1_replication.py` lines 141-165),
one column: the two input columns share the quarterly index, so the
elementwise pandas arithmetic is a zip. -/
noncomputable def calculate_equity_yields (div fut : List (Option ℚ)) : List PValR :=
  List.zipWith (fun d f => equityYieldVal d f) div fut

/-! ## Forward growth and the pooled regression sample
(`TABLE1_replication.py`, `prepare_regression_data`, lines 167-217). -/

/-- Pandas `series.shift(-horizon)`: the value at position `t` becomes the
value at position `t + horizon`, and the vacated last `horizon` positions
are filled with NaN (here: `none`). -/
def shiftNeg (s : List (Option ℚ)) (horizon : ℕ) : List (Option ℚ) :=
  (List.range s.length).map fun t => s.getD (t + horizon) none

/-- IEEE subtraction of the constant 1, the `- 1` of
`div_series.shift(-4) / div_series - 1`: NaN and the infinities are
preserved. -/
def psub1 : PVal → PVal
  | .nan => .nan
  | .posinf => .posinf
  | .neginf => .neginf
  | .num a => .num (a - 1)

/-- The forward-growth series `series.shift(-horizon) / series - 1`
(`TABLE1_replication.py` line 190, with `horizon = 4`). -/
def forward_growth (s : List (Option ℚ)) (horizon : ℕ) : List PVal :=
  List.zipWith (fun a b => psub1 (pdiv (PVal.ofOpt a) (PVal.ofOpt b)))
    (shiftNeg s horizon) s

/-- One row of the pooled dataset built in `prepare_regression_data`
(lines 204-212): realized growth, the 2-year equity yield, the two region
dummies and the `index` label column. -/
structure PooledRow where
  div_growth : PVal
  equity_yield : PValR
  eurostoxx_dummy : ℚ
  nikkei_dummy : ℚ
  region : String

/-- The block of pooled rows contributed by one region: growth is the
4-quarter forward growth of that region's dividend series, the yield
column is copied from `equity_yields`, the dummies are the constants of
lines 208-209. -/
def regionRows (name : String) (eu nk : ℚ) (divs : List (Option ℚ))
    (yields : List PValR) : List PooledRow :=
  List.zipWith (fun g y => ⟨g, y, eu, nk, name⟩) (forward_growth divs 4) yields

/-- The pooled dataset before `dropna` (lines 201-212): the three region
blocks concatenated in source order. -/
def pooled_raw (spD euD nkD : List (Option ℚ))
    (spY euY nkY : List PValR) : List PooledRow :=
  regionRows "sp500" 0 0 spD spY ++
    regionRows "eurostoxx" 1 0 euD euY ++
      regionRows "nikkei" 0 1 nkD nkY

/-- Complete-case test of `pooled_data.dropna()` (line 215): a row is kept
when no float column of it is NaN (the dummy and label columns are never
null). -/
def rowComplete (r : PooledRow) : Bool :=
  !r.div_growth.isNaN && !r.equity_yield.isNaN

/-- `prepare_regression_data` (lines 167-217): build the pooled dataset
and drop the rows with any NaN. -/
def prepare_regression_data (spD euD nkD : List (Option ℚ))
    (spY euY nkY : List PValR) : List PooledRow :=
  (pooled_raw spD euD nkD spY euY nkY).filter rowComplete

/-! ## Cleaning (`clean_data.py`, `clean_index_data` lines 17-79 and
`clean_dividend_data` lines 81-150).

Both cleaners apply, to a date-indexed table, the same index pipeline:
filter to `[START_DT, end_date]` (pandas `.loc` slicing, inclusive on both
ends), rename columns (which does not touch the index or the stored
values), sort by date, then `ffill().bfill()` columnwise.  We model a
table as a list of (date, cell) pairs for a single column, dates as ℤ;
every column of the frame is treated identically, so one column is
representative. -/

/-- Pandas `df.loc[START_DT:end_date]`: keep the rows whose date lies in
the inclusive window. -/
def filterRange (start stop : ℤ) (t : List (ℤ × Option ℚ)) : List (ℤ × Option ℚ) :=
  t.filter fun p => decide (start ≤ p.1 ∧ p.1 ≤ stop)

/-- Pandas `df.sort_index()`: sort the rows by date.  `sort_index` keeps
duplicate dates; insertion sort models any comparison sort of the index
(the claims below depend only on the sortedness of the result). -/
def sortByDate (t : List (ℤ × Option ℚ)) : List (ℤ × Option ℚ) :=
  List.insertionSort (fun p q => p.1 ≤ q.1) t

/-- Forward fill with the most recent valid value carried in the
accumulator (`acc` is the last valid observation seen so far, initially
none). -/
def ffillAux : Option ℚ → List (Option ℚ) → List (Option ℚ)
  | _, [] => []
  | acc, none :: rest => acc :: ffillAux acc rest
  | _, some q :: rest => some q :: ffillAux (some q) rest

/-- Pandas `Series.ffill()`. -/
def ffillCol (c : List (Option ℚ)) : List (Option ℚ) :=
  ffillAux none c

/-- Pandas `Series.bfill()`: a backward fill is a forward fill of the
reversed series. -/
def bfillCol (c : List (Option ℚ)) : List (Option ℚ) :=
  (ffillCol c.reverse).reverse

/-- The `df.ffill().bfill()` step of both cleaners (lines 77 and 148),
on one column. -/
def fillClean (c : List (Option ℚ)) : List (Option ℚ) :=
  bfillCol (ffillCol c)

/-- `clean_index_data` / `clean_dividend_data` on one column of the raw
table: date filter, sort, forward/backward fill.  The column renames of
lines 54-71 and 119-142 relabel columns only and are omitted: they do not
move any row or value. -/
def clean_index_data (start stop : ℤ) (raw : List (ℤ × Option ℚ)) : List (ℤ × Option ℚ) :=
  let s := sortByDate (filterRange start stop raw)
  (s.map Prod.fst).zip (fillClean (s.map Prod.snd))

/-! ## Merge (`clean_data.py`, `combine_data` lines 203-235). -/

/-- Pandas `Index.union`: the sorted, duplicate-free union of two date
indexes. -/
def sortedUnion (a b : List ℤ) : List ℤ :=
  (List.insertionSort (fun x y => x ≤ y) (a ++ b)).dedup

/-- Pandas `series.reindex(index=target, method='ffill')` at one target
date: the value stored at the most recent source date ≤ the target date
(the stored value itself, even if it is NaN — pad reindexing is purely
label-based), NaN when no source date lies at or before the target. -/
def lookupPad (src : List (ℤ × Option ℚ)) (d : ℤ) : Option ℚ :=
  match (src.filter fun p => decide (p.1 ≤ d)).getLast? with
  | some p => p.2
  | none => none

/-- `combine_data` (lines 203-235), with each of the three inputs reduced
to one representative column: the output index is the union of the three
date indexes (built left to right as in line 218), and every column is
pad-reindexed onto it. -/
def combine_data (price div yld : List (ℤ × Option ℚ)) :
    List (ℤ × (Option ℚ × Option ℚ × Option ℚ)) :=
  (sortedUnion (sortedUnion (price.map Prod.fst) (div.map Prod.fst)) (yld.map Prod.fst)).map
    fun d => (d, (lookupPad price d, lookupPad div d, lookupPad yld d))

/-! ## The regression engine (`TABLE1_replication.py`, `run_regression`
lines 219-259).

A complete-case row of `reg_data` carries four finite floats, modelled as
exact rationals.  `sm.OLS(...).fit(cov_type='HAC', cov_kwds=...)` is the
closed-form least-squares solution: beta solves the normal equations
XᵀX beta = Xᵀy, R² = 1 - SSR/SST, nobs is the number of rows, and the HAC
(Bartlett kernel, maxlags 4) sandwich gives the squared standard errors.
The solver is a fixed arithmetic formula: no randomness anywhere. -/

structure RegRow where
  div_growth : ℚ
  equity_yield : ℚ
  eurostoxx_dummy : ℚ
  nikkei_dummy : ℚ
deriving DecidableEq

/-- The design-matrix row `sm.add_constant` + the three regressors of
line 232: [const, equity_yield_2y, eurostoxx_dummy, nikkei_dummy]. -/
def xrow (r : RegRow) : Fin 4 → ℚ :=
  ![1, r.equity_yield, r.eurostoxx_dummy, r.nikkei_dummy]

/-- XᵀX of the pooled design matrix. -/
def xtx (rows : List RegRow) : Matrix (Fin 4) (Fin 4) ℚ :=
  Matrix.of fun i j => (rows.map fun r => xrow r i * xrow r j).sum

/-- Xᵀy of the pooled design matrix against the growth target. -/
def xty (rows : List RegRow) (i : Fin 4) : ℚ :=
  (rows.map fun r => xrow r i * r.div_growth).sum

/-- The OLS coefficients: the Cramer solution of the normal equations
(0 on a singular design, where the library switches to a pseudoinverse —
either way a fixed formula of the input). -/
def betaHat (rows : List RegRow) : Fin 4 → ℚ := fun i =>
  ((xtx rows).adjugate.mulVec (xty rows)) i / (xtx rows).det

/-- The residual of one row under the fitted coefficients. -/
def resid (rows : List RegRow) (r : RegRow) : ℚ :=
  r.div_growth - Finset.sum Finset.univ fun i => betaHat rows i * xrow r i

/-- Residual at position `t` of the sample (0 out of range). -/
def residAt (rows : List RegRow) (t : ℕ) : ℚ :=
  match rows.get? t with
  | some r => resid rows r
  | none => 0

/-- Design-matrix entry at position `t` of the sample (0 out of range). -/
def xAt (rows : List RegRow) (t : ℕ) (i : Fin 4) : ℚ :=
  match rows.get? t with
  | some r => xrow r i
  | none => 0

/-- The Newey-West/HAC meat matrix with Bartlett weights and
`maxlags = 4` (the `cov_kwds` of line 237). -/
def hacMeat (rows : List RegRow) : Matrix (Fin 4) (Fin 4) ℚ :=
  Matrix.of fun i j =>
    Finset.sum (Finset.range 5) fun l =>
      (1 - (l : ℚ) / 5) *
        Finset.sum (Finset.range rows.length) fun t =>
          residAt rows t * residAt rows (t + l) *
            (xAt rows t i * xAt rows (t + l) j +
              if l = 0 then 0 else xAt rows (t + l) i * xAt rows t j)

/-- The inverse of XᵀX as the Cramer/adjugate formula (0 on a singular
design). -/
def xtxInv (rows : List RegRow) : Matrix (Fin 4) (Fin 4) ℚ :=
  ((xtx rows).det)⁻¹ • (xtx rows).adjugate

/-- Squared HAC standard errors: the diagonal of the sandwich
(XᵀX)⁻¹ M (XᵀX)⁻¹ (statsmodels reports the square roots; the square
determines them). -/
def hacBseSq (rows : List RegRow) : Fin 4 → ℚ := fun i =>
  (xtxInv rows * hacMeat rows * xtxInv rows) i i

/-- R² = 1 - SSR/SST. -/
def rsquaredOf (rows : List RegRow) : ℚ :=
  let ybar := (rows.map fun r => r.div_growth).sum / (rows.length : ℚ)
  1 - ((rows.map fun r => resid rows r ^ 2).sum /
    (rows.map fun r => (r.div_growth - ybar) ^ 2).sum)

/-- Everything `run_regression` extracts from the fit (lines 244-251):
coefficients, (squared) HAC standard errors, R² and the observation
count. -/
structure RegOutput where
  params : Fin 4 → ℚ
  bse_sq : Fin 4 → ℚ
  rsquared : ℚ
  nobs : ℕ

/-- The statsmodels `add_constant`/`add_trend` test for an already-present
constant: a column is "constant and nonzero" across the sample when
`np.ptp(col) == 0` (all rows agree on its value) and that common value is
not 0. -/
def constNonzero (sample : List RegRow) (f : RegRow → ℚ) : Bool :=
  match sample with
  | [] => false
  | r :: rest => decide ((∀ s ∈ rest, f s = f r) ∧ f r ≠ 0)

/-- Whether the design matrix of line 232 —
`reg_data[['equity_yield_2y', 'eurostoxx_dummy', 'nikkei_dummy']]` —
already holds a constant nonzero column, in which case `sm.add_constant`
(default `has_constant='skip'`) adds no `const` column. -/
def hasConstColumn (sample : List RegRow) : Bool :=
  constNonzero sample (fun r => r.equity_yield) ||
    constNonzero sample (fun r => r.eurostoxx_dummy) ||
      constNonzero sample (fun r => r.nikkei_dummy)

/-- `run_regression` (lines 219-259).  Two failure paths of the real
code, modelled as `Except.error`: on an empty complete-case sample,
numpy's reduction over a zero-size array raises inside `sm.add_constant`
(the spec's `InsufficientObservationsError`); and when the design already
holds a constant nonzero column (e.g. the surviving rows are all from one
non-reference region, so its dummy is constantly 1), `sm.add_constant`
with its default `has_constant='skip'` adds no intercept column, so the
`results.params['const']` lookup of line 245 raises `KeyError` on a
nonempty sample.  Otherwise the deterministic closed-form fit is
returned. -/
def run_regression (sample : List RegRow) : Except String RegOutput :=
  if sample.isEmpty then
    Except.error "InsufficientObservationsError"
  else if hasConstColumn sample then
    Except.error "KeyError: const"
  else
    Except.ok ⟨betaHat sample, hacBseSq sample, rsquaredOf sample, sample.length⟩

/-- One row of the pooled sample as the regression stage sees it: the
two float columns may be null, the dummies never are (the complete-case
policy of `pooled_data.dropna()`, line 215, acts on exactly these
columns). -/
structure SampleRow where
  div_growth : Option ℚ
  equity_yield : Option ℚ
  eurostoxx_dummy : ℚ
  nikkei_dummy : ℚ

/-- `pooled_data.dropna()` (line 215) as the regression engine receives
it: keep exactly the complete rows, stripped of their nulls. -/
def dropna (pooled : List SampleRow) : List RegRow :=
  pooled.filterMap fun r =>
    match r.div_growth, r.equity_yield with
    | some g, some y => some ⟨g, y, r.eurostoxx_dummy, r.nikkei_dummy⟩
    | _, _ => none

/-! ## Forecast line (`TABLE1_replication.py`, `create_scatter_plot`
lines 304-348). -/

/-- The four fitted coefficients the plotting/forecast stage reads from
`results.params`. -/
structure RegParams where
  const : ℚ
  eurostoxx_dummy : ℚ
  nikkei_dummy : ℚ
  equity_yield_2y : ℚ

/-- Line 335: `y_pred = results.params['const'] +
results.params['equity_yield_2y'] * x_range`, at one yield value — the
region-dummy coefficients are not read. -/
def y_pred (results : RegParams) (x : ℚ) : ℚ :=
  results.const + results.equity_yield_2y * x

/-! ## Loader fallback (`clean_data.py` lines 30-43 and
`pull_bloomberg.py` lines 242-275). -/

inductive DataSource where
  | primary : DataSource
  | fallback : DataSource
deriving DecidableEq

/-- The file-selection of `clean_index_data`/`clean_dividend_data`
(lines 30-43 / 94-107): take the primary parquet if it exists, otherwise
the alternative parquet if that exists, otherwise raise
`FileNotFoundError` (the spec's `DataNotFoundError`). -/
def resolve_data_path (primaryExists altExists : Bool) : Except String DataSource :=
  if primaryExists then Except.ok DataSource.primary
  else if altExists then Except.ok DataSource.fallback
  else Except.error "FileNotFoundError"

/-- The sources `clean_index_data` probes, in order: the primary is
checked once, and only when it is missing is the alternative checked —
once. -/
def resolve_attempts (primaryExists : Bool) : List DataSource :=
  if primaryExists then [DataSource.primary]
  else [DataSource.primary, DataSource.fallback]

/-- The `__main__` flow of `pull_bloomberg.py` (lines 242-275): when
`USE_BBG` is set, try Bloomberg; on failure fall through to the Excel
loaders; when the Excel loaders fail too, the exception propagates. -/
def pull_main (useBbg bbgOk excelOk : Bool) : Except String DataSource :=
  if useBbg && bbgOk then Except.ok DataSource.primary
  else if excelOk then Except.ok DataSource.fallback
  else Except.error "Error loading data from Excel"

/-- The sources the pull script attempts, in order. -/
def pull_attempts (useBbg bbgOk : Bool) : List DataSource :=
  if useBbg then
    (if bbgOk then [DataSource.primary] else [DataSource.primary, DataSource.fallback])
  else [DataSource.fallback]

/-! ## Claim theorems -/

/-- C1 (amended).  The equity yield never raises (the embedding is a total
function), and where both inputs are positive it equals
`(1/2) * ln(dividend / futures)`.  But it is NOT null at every non-positive
input: it is null (NaN) exactly where an input is null, where the two
inputs have strictly opposite signs (with a zero futures price counting as
"opposite" to a negative dividend), or where both inputs are zero.  A zero
dividend against a positive futures price gives -inf, a positive dividend
against a zero futures price gives +inf, and two negative inputs give a
finite value — none of which pandas treats as null. -/
theorem C1_equity_yield_spec (d f : Option ℚ) :
    (equityYieldVal d f = PValR.nan ↔
        d = none ∨ f = none ∨
        ∃ a b, d = some a ∧ f = some b ∧
          ((a < 0 ∧ 0 ≤ b) ∨ (0 < a ∧ b < 0) ∨ (a = 0 ∧ b = 0))) ∧
    (∀ a b, d = some a → f = some b → 0 < a → 0 < b →
      equityYieldVal d f = PValR.num ((1 / 2) * Real.log ((a : ℝ) / (b : ℝ)))) := by
  constructor
  · cases d with
    | none => simp [equityYieldVal, PVal.ofOpt, pdiv, plog, PValR.half]
    | some a =>
      cases f with
      | none => simp [equityYieldVal, PVal.ofOpt, pdiv, plog, PValR.half]
      | some b =>
        rcases lt_trichotomy b 0 with hb | hb | hb
        · have hb0 : b ≠ 0 := ne_of_lt hb
          rcases lt_trichotomy a 0 with ha | ha | ha
          · have hdiv : 0 < a / b := div_pos_of_neg_of_neg ha hb
            have hv : equityYieldVal (some a) (some b) =
                PValR.num ((1 / 2) * Real.log ((a / b : ℚ) : ℝ)) := by
              simp only [equityYieldVal, PVal.ofOpt, pdiv, if_neg hb0, plog,
                if_neg (not_lt.mpr hdiv.le), if_neg (ne_of_gt hdiv), PValR.half]
            rw [hv]
            constructor
            · intro h; exact absurd h (by simp)
            · rintro (h | h | ⟨a2, b2, ha2, hb2, h⟩)
              · exact absurd h (by simp)
              · exact absurd h (by simp)
              · injection ha2 with ha2; injection hb2 with hb2; subst ha2; subst hb2
                rcases h with ⟨h1, h2⟩ | ⟨h1, h2⟩ | ⟨h1, h2⟩ <;> linarith
          · subst ha
            have hv : equityYieldVal (some 0) (some b) = PValR.neginf := by
              simp [equityYieldVal, PVal.ofOpt, pdiv, hb0, plog, PValR.half]
            rw [hv]
            constructor
            · intro h; exact absurd h (by simp)
            · rintro (h | h | ⟨a2, b2, ha2, hb2, h⟩)
              · exact absurd h (by simp)
              · exact absurd h (by simp)
              · injection ha2 with ha2; injection hb2 with hb2; subst ha2; subst hb2
                rcases h with ⟨h1, h2⟩ | ⟨h1, h2⟩ | ⟨h1, h2⟩ <;> linarith
          · have hdiv : a / b < 0 := div_neg_of_pos_of_neg ha hb
            have hv : equityYieldVal (some a) (some b) = PValR.nan := by
              simp only [equityYieldVal, PVal.ofOpt, pdiv, if_neg hb0, plog,
                if_pos hdiv, PValR.half]
            rw [hv]
            simp only [true_iff]
            exact Or.inr (Or.inr ⟨a, b, rfl, rfl, Or.inr (Or.inl ⟨ha, hb⟩)⟩)
        · subst hb
          rcases lt_trichotomy a 0 with ha | ha | ha
          · have hv : equityYieldVal (some a) (some 0) = PValR.nan := by
              simp [equityYieldVal, PVal.ofOpt, pdiv, ne_of_lt ha,
                not_lt.mpr ha.le, plog, PValR.half]
            rw [hv]
            simp only [true_iff]
            exact Or.inr (Or.inr ⟨a, 0, rfl, rfl, Or.inl ⟨ha, le_refl 0⟩⟩)
          · subst ha
            have hv : equityYieldVal (some (0 : ℚ)) (some (0 : ℚ)) = PValR.nan := by
              simp [equityYieldVal, PVal.ofOpt, pdiv, plog, PValR.half]
            rw [hv]
            simp only [true_iff]
            exact Or.inr (Or.inr ⟨0, 0, rfl, rfl, Or.inr (Or.inr ⟨rfl, rfl⟩)⟩)
          · have hv : equityYieldVal (some a) (some 0) = PValR.posinf := by
              simp [equityYieldVal, PVal.ofOpt, pdiv, ne_of_gt ha, ha,
                plog, PValR.half]
            rw [hv]
            constructor
            · intro h; exact absurd h (by simp)
            · rintro (h | h | ⟨a2, b2, ha2, hb2, h⟩)
              · exact absurd h (by simp)
              · exact absurd h (by simp)
              · injection ha2 with ha2; injection hb2 with hb2; subst ha2; subst hb2
                rcases h with ⟨h1, h2⟩ | ⟨h1, h2⟩ | ⟨h1, h2⟩ <;> linarith
        · have hb0 : b ≠ 0 := ne_of_gt hb
          rcases lt_trichotomy a 0 with ha | ha | ha
          · have hdiv : a / b < 0 := div_neg_of_neg_of_pos ha hb
            have hv : equityYieldVal (some a) (some b) = PValR.nan := by
              simp only [equityYieldVal, PVal.ofOpt, pdiv, if_neg hb0, plog,
                if_pos hdiv, PValR.half]
            rw [hv]
            simp only [true_iff]
            exact Or.inr (Or.inr ⟨a, b, rfl, rfl, Or.inl ⟨ha, hb.le⟩⟩)
          · subst ha
            have hv : equityYieldVal (some 0) (some b) = PValR.neginf := by
              simp [equityYieldVal, PVal.ofOpt, pdiv, hb0, plog, PValR.half]
            rw [hv]
            constructor
            · intro h; exact absurd h (by simp)
            · rintro (h | h | ⟨a2, b2, ha2, hb2, h⟩)
              · exact absurd h (by simp)
              · exact absurd h (by simp)
              · injection ha2 with ha2; injection hb2 with hb2; subst ha2; subst hb2
                rcases h with ⟨h1, h2⟩ | ⟨h1, h2⟩ | ⟨h1, h2⟩ <;> linarith
          · have hdiv : 0 < a / b := div_pos ha hb
            have hv : equityYieldVal (some a) (some b) =
                PValR.num ((1 / 2) * Real.log ((a / b : ℚ) : ℝ)) := by
              simp only [equityYieldVal, PVal.ofOpt, pdiv, if_neg hb0, plog,
                if_neg (not_lt.mpr hdiv.le), if_neg (ne_of_gt hdiv), PValR.half]
            rw [hv]
            constructor
            · intro h; exact absurd h (by simp)
            · rintro (h | h | ⟨a2, b2, ha2, hb2, h⟩)
              · exact absurd h (by simp)
              · exact absurd h (by simp)
              · injection ha2 with ha2; injection hb2 with hb2; subst ha2; subst hb2
                rcases h with ⟨h1, h2⟩ | ⟨h1, h2⟩ | ⟨h1, h2⟩ <;> linarith
  · rintro a b rfl rfl ha hb
    have hb0 : b ≠ 0 := ne_of_gt hb
    have hdiv : 0 < a / b := div_pos ha hb
    simp only [equityYieldVal, PVal.ofOpt, pdiv, if_neg hb0, plog,
      if_neg (not_lt.mpr hdiv.le), if_neg (ne_of_gt hdiv), PValR.half]
    rw [Rat.cast_div]

/-- C1 counterexample.  A zero dividend with a positive futures price is a
non-positive dividend input, yet the computed yield is -inf, not null: the
claim "null exactly where ... non-positive" fails on the code. -/
theorem C1_counterexample :
    equityYieldVal (some 0) (some 1) = PValR.neginf ∧
      PValR.neginf ≠ PValR.nan ∧ (0 : ℚ) ≤ 0 := by
  refine ⟨?_, by simp, le_refl 0⟩
  simp [equityYieldVal, pdiv, plog, PVal.ofOpt, PValR.half]

theorem pval_ne_nan_of_isNaN_eq_false {v : PVal} (h : v.isNaN = false) : v ≠ PVal.nan := by
  cases v <;> simp_all [PVal.isNaN]

theorem pvalr_ne_nan_of_isNaN_eq_false {v : PValR} (h : v.isNaN = false) : v ≠ PValR.nan := by
  cases v <;> simp_all [PValR.isNaN]

/-- C2.  The forward-growth series satisfies
`forward_growth(series, h)[t] = series[t+h]/series[t] - 1` at every date
with observations at `t` and `t+h` (and a nonzero denominator, which the
rational form of the equation presupposes); its last `h` entries are NaN,
never zero-filled; and every row surviving `prepare_regression_data`'s
`dropna` has a non-null growth and a non-null yield. -/
theorem C2_forward_growth (s : List (Option ℚ)) (horizon t : ℕ) :
    (∀ a b, s.get? t = some (some a) → s.get? (t + horizon) = some (some b) → a ≠ 0 →
        (forward_growth s horizon).get? t = some (PVal.num (b / a - 1))) ∧
    (s.length ≤ t + horizon → t < s.length →
        (forward_growth s horizon).get? t = some PVal.nan) ∧
    (∀ spD euD nkD spY euY nkY r,
        r ∈ prepare_regression_data spD euD nkD spY euY nkY →
          r.div_growth ≠ PVal.nan ∧ r.equity_yield ≠ PValR.nan) := by
  refine ⟨?_, ?_, ?_⟩
  · intro a b hta htb ha0
    have ht : t < s.length := by
      by_contra hc
      push_neg at hc
      rw [List.get?_eq_getElem?, List.getElem?_eq_none hc] at hta
      cases hta
    have hshift : (shiftNeg s horizon).get? t = some (some b) := by
      unfold shiftNeg
      rw [List.get?_map, List.get?_eq_getElem?, List.getElem?_range ht]
      rw [List.get?_eq_getElem?] at htb
      simp [List.getD_eq_getElem?_getD, htb]
    rw [forward_growth, List.get?_zipWith', hshift, hta]
    simp [PVal.ofOpt, pdiv, ha0, psub1]
  · intro hlen ht
    have hshift : (shiftNeg s horizon).get? t = some none := by
      unfold shiftNeg
      rw [List.get?_map, List.get?_eq_getElem?, List.getElem?_range ht]
      simp [List.getD_eq_getElem?_getD, List.getElem?_eq_none hlen]
    have hx : s.get? t = some (s.get ⟨t, ht⟩) := by
      rw [List.get?_eq_getElem?]
      simp [List.getElem?_eq_getElem ht]
    rw [forward_growth, List.get?_zipWith', hshift, hx]
    simp [PVal.ofOpt, pdiv, psub1]
  · intro spD euD nkD spY euY nkY r hr
    unfold prepare_regression_data at hr
    have hc : rowComplete r = true := (List.mem_filter.mp hr).2
    simp only [rowComplete, Bool.and_eq_true, Bool.not_eq_true'] at hc
    exact ⟨pval_ne_nan_of_isNaN_eq_false hc.1, pvalr_ne_nan_of_isNaN_eq_false hc.2⟩

/-- C4.  The scatter/forecast line applies only the fitted intercept and
the yield slope: the region-dummy coefficients do not enter, and with
β0 = 0.01, β1 = -0.5, yield = -0.04 the expected growth is 0.03. -/
theorem C4_forecast_line (c sl x eu nk eu2 nk2 : ℚ) :
    y_pred ⟨c, eu, nk, sl⟩ x = y_pred ⟨c, eu2, nk2, sl⟩ x ∧
      y_pred ⟨1 / 100, eu, nk, -(1 / 2)⟩ (-(4 / 100)) = 3 / 100 := by
  constructor
  · rfl
  · norm_num [y_pred]

/-- C8.  The regression fit is a pure arithmetic function of the pooled
sample: two runs on identical input produce identical coefficients,
(squared) HAC standard errors, R² and observation count. -/
theorem C8_regression_deterministic (s1 s2 : List RegRow) (hs : s1 = s2) :
    betaHat s1 = betaHat s2 ∧ hacBseSq s1 = hacBseSq s2 ∧
      rsquaredOf s1 = rsquaredOf s2 ∧ run_regression s1 = run_regression s2 := by
  subst hs
  exact ⟨rfl, rfl, rfl, rfl⟩

theorem C8_regression_deterministic_witness :
    betaHat [⟨1, 2, 0, 0⟩] = betaHat [⟨1, 2, 0, 0⟩] ∧
      hacBseSq [⟨1, 2, 0, 0⟩] = hacBseSq [⟨1, 2, 0, 0⟩] ∧
        rsquaredOf [⟨1, 2, 0, 0⟩] = rsquaredOf [⟨1, 2, 0, 0⟩] ∧
          run_regression [⟨1, 2, 0, 0⟩] = run_regression [⟨1, 2, 0, 0⟩] :=
  C8_regression_deterministic [⟨1, 2, 0, 0⟩] [⟨1, 2, 0, 0⟩] rfl

/-- C9 (amended).  The regression stage fails exactly when the pooled
sample is empty after null-dropping (every pooled row has a null growth
or a null yield — the spec's `InsufficientObservationsError`) OR the
surviving design holds a constant nonzero regressor column, in which case
`sm.add_constant` (default `has_constant='skip'`) adds no intercept and
the `results.params['const']` lookup of line 245 raises `KeyError` on a
nonempty sample.  When some rows are complete and no constant nonzero
column survives, no error is raised and the fit uses the smaller
complete-case sample, whose size is the reported observation count. -/
theorem C9_insufficient_observations (pooled : List SampleRow) :
    ((∃ e, run_regression (dropna pooled) = Except.error e) ↔
        (∀ r ∈ pooled, r.div_growth = none ∨ r.equity_yield = none) ∨
          hasConstColumn (dropna pooled) = true) ∧
    (∀ out, run_regression (dropna pooled) = Except.ok out →
        out.nobs = (dropna pooled).length) := by
  have hkey : ∀ s : List RegRow,
      (∃ e, run_regression s = Except.error e) ↔ s = [] ∨ hasConstColumn s = true := by
    intro s
    unfold run_regression
    cases s with
    | nil => simp
    | cons a t =>
      by_cases hc : hasConstColumn (a :: t) = true
      · simp [hc]
      · simp [hc]
  have hnil : dropna pooled = [] ↔
      ∀ r ∈ pooled, r.div_growth = none ∨ r.equity_yield = none := by
    unfold dropna
    rw [List.filterMap_eq_nil_iff]
    constructor
    · intro h r hr
      obtain ⟨g, y, eu, nk⟩ := r
      have := h _ hr
      cases g <;> cases y <;> simp_all
    · intro h r hr
      obtain ⟨g, y, eu, nk⟩ := r
      have := h _ hr
      cases g <;> cases y <;> simp_all
  constructor
  · rw [hkey, hnil]
  · intro out hout
    unfold run_regression at hout
    by_cases hs : (dropna pooled).isEmpty
    · rw [if_pos hs] at hout
      cases hout
    · rw [if_neg hs] at hout
      by_cases hc : hasConstColumn (dropna pooled) = true
      · rw [if_pos hc] at hout
        cases hout
      · rw [if_neg hc] at hout
        injection hout with hout
        rw [← hout]

/-- C9 counterexample.  A pooled sample whose two complete rows both come
from the eurostoxx region: the sample is nonempty after `dropna` (only
some rows are null, so the original claim says no error is raised), but
the eurostoxx dummy column is constantly 1, so `sm.add_constant` skips
the intercept and `results.params['const']` raises `KeyError` on this
nonempty sample — the "error iff all rows null" equivalence fails on the
code. -/
theorem C9_counterexample :
    (∃ e, run_regression (dropna
        [⟨some 0, some 0, 1, 0⟩, ⟨none, some 0, 1, 0⟩, ⟨some 0, some 0, 1, 0⟩]) =
          Except.error e) ∧
      dropna [⟨some 0, some 0, 1, 0⟩, ⟨none, some 0, 1, 0⟩, ⟨some 0, some 0, 1, 0⟩] ≠
        ([] : List RegRow) ∧
      ¬ (∀ r ∈ ([⟨some 0, some 0, 1, 0⟩, ⟨none, some 0, 1, 0⟩,
            ⟨some 0, some 0, 1, 0⟩] : List SampleRow),
          r.div_growth = none ∨ r.equity_yield = none) := by
  have hdrop : dropna [⟨some 0, some 0, 1, 0⟩, ⟨none, some 0, 1, 0⟩,
      ⟨some 0, some 0, 1, 0⟩] = [⟨0, 0, 1, 0⟩, ⟨0, 0, 1, 0⟩] := rfl
  refine ⟨⟨"KeyError: const", ?_⟩, ?_, ?_⟩
  · rw [hdrop]
    have hconst : hasConstColumn [⟨0, 0, 1, 0⟩, ⟨0, 0, 1, 0⟩] = true := by
      unfold hasConstColumn constNonzero
      norm_num
    unfold run_regression
    rw [hconst]
    rfl
  · rw [hdrop]
    simp
  · intro h
    have := h ⟨some 0, some 0, 1, 0⟩ (by simp)
    simp at this

/-- C10.  The loader probes the primary source once and, only when that
fails, the fallback source exactly once (never a retry loop), and it
fails (the spec's `DataNotFoundError`, a `FileNotFoundError` / propagated
exception in the source) exactly when neither source yields the data.
Stated both for the parquet selection in the cleaners and for the
Bloomberg-to-Excel flow of the pull script with the live source
enabled. -/
theorem C10_loader_fallback (primaryExists altExists bbgOk excelOk : Bool) :
    ((∃ e, resolve_data_path primaryExists altExists = Except.error e) ↔
        primaryExists = false ∧ altExists = false) ∧
    (resolve_attempts primaryExists).count DataSource.fallback ≤ 1 ∧
    (primaryExists = false →
        resolve_attempts primaryExists = [DataSource.primary, DataSource.fallback]) ∧
    ((∃ e, pull_main true bbgOk excelOk = Except.error e) ↔
        bbgOk = false ∧ excelOk = false) ∧
    (pull_attempts true bbgOk).count DataSource.fallback ≤ 1 ∧
    (bbgOk = false →
        pull_attempts true bbgOk = [DataSource.primary, DataSource.fallback]) := by
  cases primaryExists <;> cases altExists <;> cases bbgOk <;> cases excelOk <;>
    simp [resolve_data_path, resolve_attempts, pull_main, pull_attempts,
      List.count_cons, List.count_nil]

theorem length_ffillAux (acc : Option ℚ) (c : List (Option ℚ)) :
    (ffillAux acc c).length = c.length := by
  induction c generalizing acc with
  | nil => rfl
  | cons a rest ih => cases a <;> simp [ffillAux, ih]

theorem length_fillClean (c : List (Option ℚ)) : (fillClean c).length = c.length := by
  simp [fillClean, bfillCol, ffillCol, length_ffillAux]

theorem mem_ffillAux_some {q : ℚ} {c : List (Option ℚ)} {y : Option ℚ}
    (hy : y ∈ ffillAux (some q) c) : ∃ p, y = some p := by
  induction c generalizing q with
  | nil => simp [ffillAux] at hy
  | cons a rest ih =>
    cases a with
    | none =>
      rcases List.mem_cons.mp hy with rfl | hy2
      · exact ⟨q, rfl⟩
      · exact ih hy2
    | some p =>
      rcases List.mem_cons.mp hy with rfl | hy2
      · exact ⟨p, rfl⟩
      · exact ih hy2

theorem ffillAux_all_none {c : List (Option ℚ)} (h : ∀ x ∈ c, x = none) :
    ffillAux none c = c := by
  induction c with
  | nil => rfl
  | cons a rest ih =>
    have ha := h a (List.mem_cons_self a rest)
    subst ha
    simp only [ffillAux]
    rw [ih fun x hx => h x (List.mem_cons_of_mem _ hx)]

theorem ffillAux_id_of_no_none {c : List (Option ℚ)} (h : ∀ y ∈ c, y ≠ none)
    (acc : Option ℚ) : ffillAux acc c = c := by
  induction c generalizing acc with
  | nil => rfl
  | cons a rest ih =>
    cases a with
    | none => exact absurd rfl (h none (List.mem_cons_self _ _))
    | some q =>
      simp only [ffillAux]
      rw [ih (fun y hy => h y (List.mem_cons_of_mem _ hy))]

theorem getLast?_ffillAux_some {q : ℚ} {c : List (Option ℚ)} (hc : c ≠ []) :
    ∃ r, (ffillAux (some q) c).getLast? = some (some r) := by
  have hne : ffillAux (some q) c ≠ [] := by
    intro hnil
    have := length_ffillAux (some q) c
    rw [hnil] at this
    exact hc (List.length_eq_zero.mp this.symm)
  obtain ⟨y, hy⟩ : ∃ y, (ffillAux (some q) c).getLast? = some y :=
    ⟨_, List.getLast?_eq_getLast_of_ne_nil hne⟩
  have hmem : y ∈ ffillAux (some q) c := by
    obtain ⟨h2, rfl⟩ := List.mem_getLast?_eq_getLast hy
    exact List.getLast_mem h2
  obtain ⟨p, rfl⟩ := mem_ffillAux_some hmem
  exact ⟨p, hy⟩

theorem getLast?_ffillCol {c : List (Option ℚ)} (h : ∃ x ∈ c, x ≠ none) :
    ∃ r, (ffillCol c).getLast? = some (some r) := by
  induction c with
  | nil => simp at h
  | cons a rest ih =>
    cases a with
    | none =>
      obtain ⟨x, hx, hxn⟩ := h
      rcases List.mem_cons.mp hx with rfl | hx2
      · exact absurd rfl hxn
      have hrest : ∃ x ∈ rest, x ≠ none := ⟨x, hx2, hxn⟩
      obtain ⟨r, hr⟩ := ih hrest
      refine ⟨r, ?_⟩
      have hcons : ffillCol (none :: rest) = none :: ffillCol rest := rfl
      rw [hcons]
      have hne : ffillCol rest ≠ [] := by
        intro hnil
        have := length_ffillAux none rest
        rw [show ffillAux none rest = ffillCol rest from rfl, hnil] at this
        obtain ⟨x2, hx3, _⟩ := hrest
        rw [List.length_eq_zero.mp this.symm] at hx3
        cases hx3
      cases hfc : ffillCol rest with
      | nil => exact absurd hfc hne
      | cons b u =>
        rw [hfc] at hr
        rw [List.getLast?_cons_cons]
        exact hr
    | some q =>
      cases rest with
      | nil => exact ⟨q, rfl⟩
      | cons b u =>
        have hcons : ffillCol (some q :: b :: u) = some q :: ffillAux (some q) (b :: u) := rfl
        obtain ⟨r, hr⟩ := getLast?_ffillAux_some (q := q) (c := b :: u) (by simp)
        refine ⟨r, ?_⟩
        rw [hcons]
        cases hfa : ffillAux (some q) (b :: u) with
        | nil =>
          have := length_ffillAux (some q) (b :: u)
          rw [hfa] at this
          simp at this
        | cons e v =>
          rw [hfa] at hr
          rw [List.getLast?_cons_cons]
          exact hr

theorem fillClean_ne_none {c : List (Option ℚ)} (h : ∃ x ∈ c, x ≠ none) :
    ∀ y ∈ fillClean c, y ≠ none := by
  intro y hy
  obtain ⟨r, hr⟩ := getLast?_ffillCol h
  have hhead : (ffillCol c).reverse.head? = some (some r) := by
    rw [List.head?_reverse, hr]
  cases hrev : (ffillCol c).reverse with
  | nil => rw [hrev] at hhead; cases hhead
  | cons b u =>
    rw [hrev] at hhead
    have hb : b = some r := by
      simp [List.head?] at hhead
      exact hhead
    subst hb
    unfold fillClean bfillCol at hy
    rw [hrev] at hy
    rw [List.mem_reverse] at hy
    have hcons : ffillCol (some r :: u) = some r :: ffillAux (some r) u := rfl
    rw [hcons] at hy
    rcases List.mem_cons.mp hy with rfl | hy2
    · simp
    · obtain ⟨p, rfl⟩ := mem_ffillAux_some hy2
      simp

theorem fillClean_all_none {c : List (Option ℚ)} (h : ∀ x ∈ c, x = none) :
    fillClean c = c := by
  have h1 : ffillCol c = c := ffillAux_all_none h
  unfold fillClean bfillCol
  rw [h1]
  have h2 : ffillCol c.reverse = c.reverse :=
    ffillAux_all_none fun x hx => h x (List.mem_reverse.mp hx)
  rw [h2, List.reverse_reverse]

theorem fillClean_id_of_no_none {c : List (Option ℚ)} (h : ∀ y ∈ c, y ≠ none) :
    fillClean c = c := by
  unfold fillClean bfillCol ffillCol
  rw [ffillAux_id_of_no_none h none]
  rw [ffillAux_id_of_no_none (fun y hy => h y (List.mem_reverse.mp hy)) none]
  exact List.reverse_reverse c

/-- C5 (amended).  After the forward-then-backward fill, a column with at
least one observation has no missing values at all: interior gaps are
forward-filled and leading gaps ARE backward-filled (synthesized) from the
first observation; only an entirely null column stays null. -/
theorem C5_fill_gaps (c : List (Option ℚ)) :
    ((∃ x ∈ c, x ≠ none) → ∀ y ∈ fillClean c, y ≠ none) ∧
    ((∀ x ∈ c, x = none) → fillClean c = c) :=
  ⟨fun h => fillClean_ne_none h, fun h => fillClean_all_none h⟩

/-- C5 counterexample.  A leading gap (a null before the first
observation) is filled backward by `ffill().bfill()` with a synthesized
value — it does not "remain absent" as the claim states. -/
theorem C5_counterexample :
    ([none, some (1 : ℚ)] : List (Option ℚ)).get? 0 = some none ∧
      (fillClean [none, some (1 : ℚ)]).get? 0 = some (some 1) := by
  constructor
  · rfl
  · rfl

/-- C7.  Forward-fill-then-backward-fill is idempotent: a second
application changes nothing. -/
theorem C7_fill_idempotent (c : List (Option ℚ)) :
    fillClean (fillClean c) = fillClean c := by
  by_cases h : ∀ x ∈ c, x = none
  · rw [fillClean_all_none h, fillClean_all_none h]
  · push_neg at h
    obtain ⟨x, hx, hxn⟩ := h
    exact fillClean_id_of_no_none (fillClean_ne_none ⟨x, hx, hxn⟩)

instance : IsTotal (ℤ × Option ℚ) fun p q => p.1 ≤ q.1 :=
  ⟨fun a b => le_total a.1 b.1⟩

instance : IsTrans (ℤ × Option ℚ) fun p q => p.1 ≤ q.1 :=
  ⟨fun _ _ _ h1 h2 => le_trans h1 h2⟩

/-- C3 (amended).  The cleaned table's date index is sorted ascending and
every retained row lies in the inclusive `[start, stop]` window; but the
cleaners contain no deduplication step, so duplicate dates of the raw
input survive and the index is only non-decreasing in general — it is
strictly increasing exactly when the raw input had no duplicate dates. -/
theorem C3_clean_index_monotone (start stop : ℤ) (raw : List (ℤ × Option ℚ)) :
    List.Sorted (· ≤ ·) ((clean_index_data start stop raw).map Prod.fst) ∧
    (∀ p ∈ clean_index_data start stop raw, start ≤ p.1 ∧ p.1 ≤ stop) ∧
    ((raw.map Prod.fst).Nodup →
        List.Sorted (· < ·) ((clean_index_data start stop raw).map Prod.fst)) := by
  have hidx : (clean_index_data start stop raw).map Prod.fst =
      (sortByDate (filterRange start stop raw)).map Prod.fst := by
    unfold clean_index_data
    apply List.map_fst_zip
    rw [length_fillClean, List.length_map, List.length_map]
  have hsorted : List.Sorted (fun p q : ℤ × Option ℚ => p.1 ≤ q.1)
      (sortByDate (filterRange start stop raw)) :=
    List.sorted_insertionSort _ _
  have hperm : List.Perm (sortByDate (filterRange start stop raw))
      (filterRange start stop raw) :=
    List.perm_insertionSort _ _
  refine ⟨?_, ?_, ?_⟩
  · rw [hidx]
    exact List.Pairwise.map Prod.fst (fun a b h => h) hsorted
  · intro p hp
    unfold clean_index_data at hp
    obtain ⟨a, b⟩ := p
    have hmem := (List.of_mem_zip hp).1
    obtain ⟨q, hq, hq2⟩ := List.mem_map.mp hmem
    have hqf : q ∈ filterRange start stop raw := hperm.mem_iff.mp hq
    have hqr := List.mem_filter.mp hqf
    have hcond := of_decide_eq_true hqr.2
    rw [← hq2]
    exact hcond
  · intro hnd
    rw [hidx]
    have hsub : List.Sublist ((filterRange start stop raw).map Prod.fst)
        (raw.map Prod.fst) :=
      List.Sublist.map Prod.fst (List.filter_sublist raw)
    have hnd2 : ((filterRange start stop raw).map Prod.fst).Nodup :=
      List.Nodup.sublist hsub hnd
    have hnd3 : ((sortByDate (filterRange start stop raw)).map Prod.fst).Nodup :=
      ((hperm.map Prod.fst).nodup_iff).mpr hnd2
    have hle : List.Pairwise (fun x y : ℤ => x ≤ y)
        ((sortByDate (filterRange start stop raw)).map Prod.fst) :=
      List.Pairwise.map Prod.fst (fun a b h => h) hsorted
    exact (hle.and hnd3).imp fun h => lt_of_le_of_ne h.1 h.2

/-- C3 counterexample.  A raw table whose date `1` appears twice inside
the window is cleaned to a table whose index still holds `1` twice: the
index is neither duplicate-free nor strictly increasing, because the
cleaners never deduplicate. -/
theorem C3_counterexample :
    (clean_index_data 0 5 [(1, some 1), (1, some 2)]).map Prod.fst = [1, 1] ∧
      ¬ ([1, 1] : List ℤ).Nodup ∧
      ¬ List.Sorted (fun x y : ℤ => x < y) [1, 1] := by
  refine ⟨?_, by decide, by decide⟩
  rfl

theorem sorted_le_sortedUnion (a b : List ℤ) :
    List.Sorted (fun x y : ℤ => x ≤ y) (sortedUnion a b) := by
  have hs : List.Sorted (fun x y : ℤ => x ≤ y)
      (List.insertionSort (fun x y => x ≤ y) (a ++ b)) :=
    List.sorted_insertionSort _ _
  exact List.Pairwise.sublist (List.dedup_sublist _) hs

theorem nodup_sortedUnion (a b : List ℤ) : (sortedUnion a b).Nodup :=
  List.nodup_dedup _

theorem sorted_lt_sortedUnion (a b : List ℤ) :
    List.Sorted (fun x y : ℤ => x < y) (sortedUnion a b) :=
  ((sorted_le_sortedUnion a b).and (nodup_sortedUnion a b)).imp
    fun h => lt_of_le_of_ne h.1 h.2

theorem mem_sortedUnion {a b : List ℤ} {d : ℤ} :
    d ∈ sortedUnion a b ↔ d ∈ a ∨ d ∈ b := by
  unfold sortedUnion
  rw [List.mem_dedup, List.mem_insertionSort, List.mem_append]

theorem getLast?_of_max {l : List (ℤ × Option ℚ)}
    (hs : List.Sorted (fun p q : ℤ × Option ℚ => p.1 < q.1) l)
    {x : ℤ × Option ℚ} (hx : x ∈ l) (hmax : ∀ p ∈ l, p.1 ≤ x.1) :
    l.getLast? = some x := by
  induction l with
  | nil => cases hx
  | cons a t ih =>
    cases t with
    | nil =>
      rcases List.mem_cons.mp hx with rfl | h2
      · rfl
      · cases h2
    | cons b u =>
      rw [List.getLast?_cons_cons]
      rcases List.mem_cons.mp hx with rfl | hxt
      · have hab : x.1 < b.1 := (List.pairwise_cons.mp hs).1 b (List.mem_cons_self b u)
        have hbx : b.1 ≤ x.1 := hmax b (List.mem_cons_of_mem _ (List.mem_cons_self b u))
        exact absurd hab (not_lt.mpr hbx)
      · exact ih (List.Pairwise.of_cons hs) hxt
          fun p hp => hmax p (List.mem_cons_of_mem _ hp)

theorem lookupPad_eq_of_max {src : List (ℤ × Option ℚ)}
    (hs : List.Sorted (fun p q : ℤ × Option ℚ => p.1 < q.1) src)
    {d d2 : ℤ} {v2 : Option ℚ} (hmem : (d2, v2) ∈ src) (hle : d2 ≤ d)
    (hmax : ∀ p ∈ src, p.1 ≤ d → p.1 ≤ d2) :
    lookupPad src d = v2 := by
  have hsf : List.Sorted (fun p q : ℤ × Option ℚ => p.1 < q.1)
      (src.filter fun p => decide (p.1 ≤ d)) :=
    List.Pairwise.sublist (List.filter_sublist src) hs
  have hmemf : (d2, v2) ∈ src.filter fun p => decide (p.1 ≤ d) :=
    List.mem_filter.mpr ⟨hmem, decide_eq_true hle⟩
  have hmaxf : ∀ p ∈ src.filter fun p => decide (p.1 ≤ d), p.1 ≤ (d2, v2).1 := by
    intro p hp
    have h2 := List.mem_filter.mp hp
    exact hmax p h2.1 (of_decide_eq_true h2.2)
  have hlast := getLast?_of_max hsf hmemf hmaxf
  unfold lookupPad
  rw [hlast]

theorem lookupPad_eq_none {src : List (ℤ × Option ℚ)} {d : ℤ}
    (h : ∀ p ∈ src, d < p.1) : lookupPad src d = none := by
  have hf : (src.filter fun p => decide (p.1 ≤ d)) = [] := by
    rw [List.filter_eq_nil_iff]
    intro p hp
    simp only [decide_eq_true_eq]
    exact not_le.mpr (h p hp)
  unfold lookupPad
  rw [hf]
  rfl

/-- C6.  The merged table's date index is the sorted, duplicate-free
outer union of the input indexes, every output row carries the
pad-reindexed values of the three inputs, and pad reindexing over a
strictly sorted input returns exactly the value stored at the most
recent source date at or before the target date — never an interpolated
or future value — and null when no such date exists. -/
theorem C6_combine_data (price div yld src : List (ℤ × Option ℚ))
    (hsrc : List.Sorted (fun p q : ℤ × Option ℚ => p.1 < q.1) src) :
    List.Sorted (fun x y : ℤ => x < y) ((combine_data price div yld).map Prod.fst) ∧
    (∀ d : ℤ, d ∈ (combine_data price div yld).map Prod.fst ↔
        d ∈ price.map Prod.fst ∨ d ∈ div.map Prod.fst ∨ d ∈ yld.map Prod.fst) ∧
    (∀ p ∈ combine_data price div yld,
        p.2 = (lookupPad price p.1, lookupPad div p.1, lookupPad yld p.1)) ∧
    (∀ d d2 v2, (d2, v2) ∈ src → d2 ≤ d →
        (∀ p ∈ src, p.1 ≤ d → p.1 ≤ d2) → lookupPad src d = v2) ∧
    (∀ d, (∀ p ∈ src, d < p.1) → lookupPad src d = none) := by
  have hmf : (combine_data price div yld).map Prod.fst =
      sortedUnion (sortedUnion (price.map Prod.fst) (div.map Prod.fst))
        (yld.map Prod.fst) := by
    unfold combine_data
    rw [List.map_map]
    have hcomp : (Prod.fst ∘ fun d : ℤ =>
        (d, (lookupPad price d, lookupPad div d, lookupPad yld d))) = id := rfl
    rw [hcomp, List.map_id]
  refine ⟨?_, ?_, ?_, ?_, ?_⟩
  · rw [hmf]
    exact sorted_lt_sortedUnion _ _
  · intro d
    rw [hmf, mem_sortedUnion, mem_sortedUnion, or_assoc]
  · intro p hp
    unfold combine_data at hp
    obtain ⟨d, hd, rfl⟩ := List.mem_map.mp hp
    rfl
  · intro d d2 v2 hmem hle hmax
    exact lookupPad_eq_of_max hsrc hmem hle hmax
  · intro d h
    exact lookupPad_eq_none h

theorem C6_combine_data_witness :
    List.Sorted (fun x y : ℤ => x < y)
      ((combine_data [(0, some 1)] [] []).map Prod.fst) ∧
    (∀ d : ℤ, d ∈ (combine_data [(0, some 1)] [] []).map Prod.fst ↔
        d ∈ ([(0, some 1)] : List (ℤ × Option ℚ)).map Prod.fst ∨
          d ∈ ([] : List (ℤ × Option ℚ)).map Prod.fst ∨
            d ∈ ([] : List (ℤ × Option ℚ)).map Prod.fst) ∧
    (∀ p ∈ combine_data [(0, some 1)] [] [],
        p.2 = (lookupPad [(0, some 1)] p.1, lookupPad [] p.1, lookupPad [] p.1)) ∧
    (∀ d d2 v2, (d2, v2) ∈ ([(0, some 1)] : List (ℤ × Option ℚ)) → d2 ≤ d →
        (∀ p ∈ ([(0, some 1)] : List (ℤ × Option ℚ)), p.1 ≤ d → p.1 ≤ d2) →
          lookupPad [(0, some 1)] d = v2) ∧
    (∀ d, (∀ p ∈ ([(0, some 1)] : List (ℤ × Option ℚ)), d < p.1) →
        lookupPad [(0, some 1)] d = none) :=
  C6_combine_data [(0, some 1)] [] [] [(0, some 1)] (List.sorted_singleton _)
